import Mathlib

/-!
Verification of the DAKOSYS change-detection and batching engine.

This file gives a shallow embedding of the functions the specification
talks about:

* `track_library_changes` from size_overlay.py (snapshot diffing),
* the sort key of `run_size_overlay_service` (ordering of change records),
* the per-show change decision of `TVStatusTracker.run` from
  tv_status_tracker.py,
* the Discord-embed packing loop of `notify_tv_status_updates` from
  notifications.py,

together with theorems settling the testable properties of the
specification.  Sizes are modelled with rationals, Python dictionaries
with association lists, and Python strings with the character-list
representation of Lean strings.
-/

namespace Dakosys

/- ----------------------------------------------------------------- -/
/- size_overlay.py : track_library_changes (lines 357-493)           -/
/- ----------------------------------------------------------------- -/

/-- Change kinds emitted by `track_library_changes`.  The code writes them
as the strings "NEW", "NEW_EPISODES", "REMOVED_EPISODES",
"QUALITY_CHANGE" and "REMOVED". -/
inductive ChangeType where
  | NEW
  | NEW_EPISODES
  | REMOVED_EPISODES
  | QUALITY_CHANGE
  | REMOVED
deriving DecidableEq

/-- One element of `current_data`: the code reads `item['title']`,
`item['size_gb']` and `item.get('episode_count', 0)`, so a missing
episode count is the same as 0. -/
structure SizeItem where
  title : String
  size_gb : ℚ
  episode_count : Nat
deriving DecidableEq

/-- One element of `item_changes` as built by `track_library_changes`
(the keys used by later claims; presentation-only keys such as
`library_name` or `episodes_added` are omitted). -/
structure ChangeItem where
  title : String
  previous_size : Option ℚ
  current_size : ℚ
  change : ℚ
  ctype : ChangeType
deriving DecidableEq

/-- Python `dict.get(k)` on an association list. -/
def dictGet {β : Type} (k : String) : List (String × β) → Option β
  | [] => none
  | (k₂, v) :: t => if k = k₂ then some v else dictGet k t

/-- The body of the `for item in current_data` loop of
`track_library_changes` (size_overlay.py lines 404-455): classify one
current item against the previous snapshot, returning the change record
appended to `item_changes`, or `none` for the `continue` branch. -/
def classifyCurrentItem (isShow : Bool) (previousItems : List (String × ℚ))
    (previousEpisodes : List (String × Nat)) (item : SizeItem) : Option ChangeItem :=
  let current_size := item.size_gb
  let current_episode_count := if isShow then item.episode_count else 0
  let previous_episode_count := if isShow then (dictGet item.title previousEpisodes).getD 0 else 0
  match dictGet item.title previousItems with
  | none => some ⟨item.title, none, current_size, current_size, .NEW⟩
  | some previous_size =>
    if isShow = true ∧ previous_episode_count < current_episode_count then
      some ⟨item.title, some previous_size, current_size, current_size - previous_size,
            .NEW_EPISODES⟩
    else if isShow = true ∧ current_episode_count < previous_episode_count then
      some ⟨item.title, some previous_size, current_size, current_size - previous_size,
            .REMOVED_EPISODES⟩
    else if (1 : ℚ)/100 < |current_size - previous_size| then
      some ⟨item.title, some previous_size, current_size, current_size - previous_size,
            .QUALITY_CHANGE⟩
    else none

/-- The `for title, previous_size in previous_items.items()` loop of
`track_library_changes` (size_overlay.py lines 457-476): emit a REMOVED
record for every previous item whose title matches no current item. -/
def removedItems (currentData : List SizeItem)
    (previousItems : List (String × ℚ)) : List ChangeItem :=
  previousItems.filterMap fun tp =>
    if currentData.any (fun item => item.title == tp.1) then none
    else some ⟨tp.1, some tp.2, 0, -tp.2, .REMOVED⟩

/-- The change-detection part of `track_library_changes`
(size_overlay.py lines 399-476).  `previousItems` and
`previousEpisodes` are the `items` and `episodes` entries of the stored
snapshot for this library (empty when absent), and the result is the
`item_changes` return value.  `is_first_run` is the emptiness test
`not previous_items` of line 400. -/
def track_library_changes (isShow : Bool) (currentData : List SizeItem)
    (previousItems : List (String × ℚ))
    (previousEpisodes : List (String × Nat)) : List ChangeItem :=
  if previousItems = [] then []
  else
    currentData.filterMap (classifyCurrentItem isShow previousItems previousEpisodes)
      ++ removedItems currentData previousItems

/-- The snapshot `items` dictionary written at the end of
`track_library_changes` (line 479). -/
def storeItems (currentData : List SizeItem) : List (String × ℚ) :=
  currentData.map fun item => (item.title, item.size_gb)

/-- The snapshot `episodes` dictionary written at the end of
`track_library_changes` (lines 482-484). -/
def storeEpisodes (isShow : Bool) (currentData : List SizeItem) : List (String × Nat) :=
  if isShow then currentData.map fun item => (item.title, item.episode_count) else []

/- ----------------------------------------------------------------- -/
/- size_overlay.py : the sort of run_size_overlay_service (818-828)  -/
/- ----------------------------------------------------------------- -/

/-- The first component of the sort key at size_overlay.py lines 821-825:
0 for NEW, 1 for NEW_EPISODES, 2 for QUALITY_CHANGE, 3 for
REMOVED_EPISODES and 4 otherwise. -/
def changePriority : ChangeType → Nat
  | .NEW => 0
  | .NEW_EPISODES => 1
  | .QUALITY_CHANGE => 2
  | .REMOVED_EPISODES => 3
  | .REMOVED => 4

/-- The ordering induced by the key
`(priority, -abs(change))` of size_overlay.py lines 819-828. -/
def sortKeyLe (a b : ChangeItem) : Bool :=
  decide (changePriority a.ctype < changePriority b.ctype ∨
    (changePriority a.ctype = changePriority b.ctype ∧ |b.change| ≤ |a.change|))

/-- The `sorted(item_changes, key=...)` call of size_overlay.py lines
818-828.  Python `sorted` is a stable sort by the key, which is exactly
a stable merge sort under `sortKeyLe`. -/
def sortedChanges (l : List ChangeItem) : List ChangeItem :=
  l.mergeSort sortKeyLe

/- ----------------------------------------------------------------- -/
/- Lemmas about the diff engine                                      -/
/- ----------------------------------------------------------------- -/

theorem dictGet_map_of_mem {β : Type} (f : SizeItem → β) (cur : List SizeItem) (i : SizeItem)
    (hnd : (cur.map (·.title)).Nodup) (hmem : i ∈ cur) :
    dictGet i.title (cur.map fun j => (j.title, f j)) = some (f i) := by
  induction cur with
  | nil => cases hmem
  | cons j t ih =>
    simp only [List.map_cons, List.nodup_cons] at hnd
    rcases List.mem_cons.mp hmem with rfl | hmem2
    · simp [dictGet]
    · have hne : i.title ≠ j.title := by
        intro he
        exact hnd.1 (he ▸ List.mem_map_of_mem (·.title) hmem2)
      simp only [List.map_cons, dictGet, if_neg hne]
      exact ih hnd.2 hmem2

/-- If an item appears in both snapshots with identical size and (for
shows) identical episode count, the classification loop body skips it. -/
theorem classifyCurrentItem_self (isShow : Bool) (pI : List (String × ℚ))
    (pE : List (String × Nat)) (i : SizeItem)
    (hp : dictGet i.title pI = some i.size_gb)
    (he : isShow = true → (dictGet i.title pE).getD 0 = i.episode_count) :
    classifyCurrentItem isShow pI pE i = none := by
  unfold classifyCurrentItem
  rw [hp]
  cases isShow with
  | false => simp
  | true => simp [he rfl]

/-- Every record produced by the classification loop body carries the
title of the item it was produced from. -/
theorem classifyCurrentItem_title (isShow : Bool) (pI : List (String × ℚ))
    (pE : List (String × Nat)) (i : SizeItem) (r : ChangeItem)
    (h : classifyCurrentItem isShow pI pE i = some r) : r.title = i.title := by
  unfold classifyCurrentItem at h
  rcases hd : dictGet i.title pI with _ | p <;> rw [hd] at h
  · cases h; rfl
  · cases isShow <;>
      simp only [Bool.false_eq_true, false_and, if_false, true_and, ite_false] at h <;>
      split_ifs at h <;> (try cases h) <;> rfl

theorem filter_filterMap_classify (isShow : Bool) (pI : List (String × ℚ))
    (pE : List (String × Nat)) (cur : List SizeItem) (i : SizeItem)
    (hnd : (cur.map (·.title)).Nodup) (hmem : i ∈ cur) :
    (cur.filterMap (classifyCurrentItem isShow pI pE)).filter (fun r => r.title == i.title)
      = (classifyCurrentItem isShow pI pE i).toList := by
  induction cur with
  | nil => cases hmem
  | cons j t ih =>
    simp only [List.map_cons, List.nodup_cons] at hnd
    rw [List.filterMap_cons]
    rcases List.mem_cons.mp hmem with rfl | hmem2
    · have htail : (t.filterMap (classifyCurrentItem isShow pI pE)).filter
          (fun r => r.title == i.title) = [] := by
        rw [List.filter_eq_nil_iff]
        intro r hr
        obtain ⟨k, hk, hck⟩ := List.mem_filterMap.mp hr
        have hrt : r.title = k.title := classifyCurrentItem_title _ _ _ _ _ hck
        have hkne : k.title ≠ i.title := fun hhe => hnd.1 (hhe ▸ List.mem_map_of_mem _ hk)
        simp [hrt, hkne]
      rcases hcl : classifyCurrentItem isShow pI pE i with _ | r
      · simpa [hcl] using htail
      · have hrt : r.title = i.title := classifyCurrentItem_title _ _ _ _ _ hcl
        simp [List.filter_cons, hrt, htail]
    · have hne : j.title ≠ i.title := fun hhe => hnd.1 (hhe ▸ List.mem_map_of_mem _ hmem2)
      rcases hcl : classifyCurrentItem isShow pI pE j with _ | r
      · simpa using ih hnd.2 hmem2
      · have hrt : r.title = j.title := classifyCurrentItem_title _ _ _ _ _ hcl
        simp only [List.filter_cons, hrt, hne, beq_iff_eq, if_neg hne]
        exact ih hnd.2 hmem2

theorem filter_removedItems (cur : List SizeItem) (pI : List (String × ℚ)) (i : SizeItem)
    (hmem : i ∈ cur) :
    (removedItems cur pI).filter (fun r => r.title == i.title) = [] := by
  rw [List.filter_eq_nil_iff]
  intro r hr
  unfold removedItems at hr
  obtain ⟨tp, _, hif⟩ := List.mem_filterMap.mp hr
  by_cases hany : cur.any (fun item => item.title == tp.1) = true
  · rw [if_pos hany] at hif; cases hif
  · rw [if_neg hany] at hif
    cases hif
    simp only [beq_iff_eq]
    intro hti
    exact hany (List.any_eq_true.mpr ⟨i, hmem, by simp [hti]⟩)

theorem dictGet_ne_nil {β : Type} (k : String) (l : List (String × β)) (v : β)
    (h : dictGet k l = some v) : l ≠ [] := by
  intro hl
  rw [hl] at h
  cases h

theorem changePriority_inj (a b : ChangeType) (h : changePriority a = changePriority b) :
    a = b := by
  cases a <;> cases b <;> simp_all [changePriority]

/- ----------------------------------------------------------------- -/
/- Claim C5                                                          -/
/- ----------------------------------------------------------------- -/

/-- C5: diffing a snapshot against itself produces an empty list of
change records.  For any current data whose titles are distinct (a
snapshot is a mapping keyed by title), running `track_library_changes`
against the snapshot stored from that very data returns no changes. -/
theorem C5_diff_self (isShow : Bool) (cur : List SizeItem)
    (hnd : (cur.map (·.title)).Nodup) :
    track_library_changes isShow cur (storeItems cur) (storeEpisodes isShow cur) = [] := by
  unfold track_library_changes
  split
  · rfl
  · have h1 : cur.filterMap
        (classifyCurrentItem isShow (storeItems cur) (storeEpisodes isShow cur)) = [] := by
      rw [List.filterMap_eq_nil_iff]
      intro i hi
      apply classifyCurrentItem_self
      · exact dictGet_map_of_mem (fun j => j.size_gb) cur i hnd hi
      · intro hs
        subst hs
        simp [storeEpisodes, dictGet_map_of_mem (fun j => j.episode_count) cur i hnd hi]
    have h2 : removedItems cur (storeItems cur) = [] := by
      unfold removedItems
      rw [List.filterMap_eq_nil_iff]
      intro tp htp
      unfold storeItems at htp
      obtain ⟨j, hj, rfl⟩ := List.mem_map.mp htp
      have hany : cur.any (fun item => item.title == j.title) = true :=
        List.any_eq_true.mpr ⟨j, hj, by simp⟩
      simp [hany]
    rw [h1, h2]
    rfl

/-- Witness for C5 at a concrete snapshot. -/
theorem C5_diff_self_witness :
    track_library_changes true [⟨"A", 10, 3⟩, ⟨"B", 5, 2⟩]
      (storeItems [⟨"A", 10, 3⟩, ⟨"B", 5, 2⟩])
      (storeEpisodes true [⟨"A", 10, 3⟩, ⟨"B", 5, 2⟩]) = [] :=
  C5_diff_self true [⟨"A", 10, 3⟩, ⟨"B", 5, 2⟩] (by simp)

/- ----------------------------------------------------------------- -/
/- Claim C6                                                          -/
/- ----------------------------------------------------------------- -/

/-- C6: completeness of the diff.  When a previous snapshot exists
(`previous_items` nonempty, otherwise the code takes its first-run
branch), every title present only in the current data yields a NEW
record, every title present only in the previous snapshot yields a
REMOVED record, and a title present in both with identical size and
(for shows) identical episode count yields no record at all. -/
theorem C6_completeness (isShow : Bool) (cur : List SizeItem) (pI : List (String × ℚ))
    (pE : List (String × Nat)) (hne : pI ≠ []) (hnd : (cur.map (·.title)).Nodup) :
    (∀ i ∈ cur, dictGet i.title pI = none →
      (⟨i.title, none, i.size_gb, i.size_gb, .NEW⟩ : ChangeItem)
        ∈ track_library_changes isShow cur pI pE) ∧
    (∀ tp ∈ pI, (∀ i ∈ cur, i.title ≠ tp.1) →
      (⟨tp.1, some tp.2, 0, -tp.2, .REMOVED⟩ : ChangeItem)
        ∈ track_library_changes isShow cur pI pE) ∧
    (∀ i ∈ cur, dictGet i.title pI = some i.size_gb →
      (isShow = true → (dictGet i.title pE).getD 0 = i.episode_count) →
      ∀ r ∈ track_library_changes isShow cur pI pE, r.title ≠ i.title) := by
  unfold track_library_changes
  rw [if_neg hne]
  refine ⟨?_, ?_, ?_⟩
  · intro i hi hnone
    apply List.mem_append_left
    apply List.mem_filterMap.mpr
    refine ⟨i, hi, ?_⟩
    unfold classifyCurrentItem
    rw [hnone]
  · intro tp htp hno
    apply List.mem_append_right
    unfold removedItems
    apply List.mem_filterMap.mpr
    refine ⟨tp, htp, ?_⟩
    have hany : cur.any (fun item => item.title == tp.1) = false :=
      List.any_eq_false.mpr (fun i hi => by simp [hno i hi])
    simp [hany]
  · intro i hi hsz hep r hr hti
    rcases List.mem_append.mp hr with hr1 | hr2
    · obtain ⟨k, hk, hck⟩ := List.mem_filterMap.mp hr1
      have hkt : r.title = k.title := classifyCurrentItem_title _ _ _ _ _ hck
      have hki : k = i :=
        List.inj_on_of_nodup_map hnd hk hi (hkt ▸ hti)
      rw [hki, classifyCurrentItem_self isShow pI pE i hsz hep] at hck
      cases hck
    · unfold removedItems at hr2
      obtain ⟨tp, _, hif⟩ := List.mem_filterMap.mp hr2
      by_cases hany : cur.any (fun item => item.title == tp.1) = true
      · rw [if_pos hany] at hif; cases hif
      · rw [if_neg hany] at hif
        cases hif
        have h2 : tp.1 = i.title := by simpa using hti
        exact hany (List.any_eq_true.mpr ⟨i, hi, by simp [h2]⟩)

/-- Witness for C6: one new title, one removed title, at a concrete
previous/current pair. -/
theorem C6_completeness_witness :
    (⟨"A", none, 5, 5, .NEW⟩ : ChangeItem)
      ∈ track_library_changes false [⟨"A", 5, 0⟩] [("B", 3)] [] :=
  (C6_completeness false [⟨"A", 5, 0⟩] [("B", 3)] [] (by simp) (by simp)).1
    ⟨"A", 5, 0⟩ (by simp) (by simp [dictGet])

/- ----------------------------------------------------------------- -/
/- Claim C7                                                          -/
/- ----------------------------------------------------------------- -/

/-- C7: the list of change records handed to the renderer is sorted by
the fixed kind priority NEW(0), NEW_EPISODES(1), QUALITY_CHANGE(2),
REMOVED_EPISODES(3), REMOVED(4), and inside one kind by descending
absolute size change, for every input list. -/
theorem C7_sortedChanges_sorted (l : List ChangeItem) :
    (sortedChanges l).Pairwise (fun a b =>
      changePriority a.ctype < changePriority b.ctype ∨
        (a.ctype = b.ctype ∧ |b.change| ≤ |a.change|)) := by
  have htrans : ∀ a b c : ChangeItem, sortKeyLe a b → sortKeyLe b c → sortKeyLe a c := by
    intro a b c hab hbc
    simp only [sortKeyLe, decide_eq_true_iff] at *
    rcases hab with h1 | ⟨h1, h1q⟩ <;> rcases hbc with h2 | ⟨h2, h2q⟩
    · exact Or.inl (h1.trans h2)
    · exact Or.inl (h2 ▸ h1)
    · exact Or.inl (h1 ▸ h2)
    · exact Or.inr ⟨h1.trans h2, h2q.trans h1q⟩
  have htotal : ∀ a b : ChangeItem, sortKeyLe a b || sortKeyLe b a := by
    intro a b
    simp only [sortKeyLe, Bool.or_eq_true, decide_eq_true_iff]
    rcases Nat.lt_trichotomy (changePriority a.ctype) (changePriority b.ctype) with h | h | h
    · exact Or.inl (Or.inl h)
    · rcases le_total |b.change| |a.change| with hq | hq
      · exact Or.inl (Or.inr ⟨h, hq⟩)
      · exact Or.inr (Or.inr ⟨h.symm, hq⟩)
    · exact Or.inr (Or.inl h)
  have hs := List.sorted_mergeSort htrans htotal l
  refine hs.imp ?_
  intro a b hab
  simp only [sortKeyLe, decide_eq_true_iff] at hab
  rcases hab with h | ⟨heq, hle⟩
  · exact Or.inl h
  · exact Or.inr ⟨changePriority_inj _ _ heq, hle⟩

/- ----------------------------------------------------------------- -/
/- Claim C8                                                          -/
/- ----------------------------------------------------------------- -/

/-- C8: for an item of a show library present in both snapshots, an
episode-count change always wins: the diff emits exactly one record for
that title, of kind NEW_EPISODES or REMOVED_EPISODES carrying the size
delta, and QUALITY_CHANGE is emitted exactly when the count is
unchanged and the absolute size delta exceeds 0.01. -/
theorem C8_count_change_precedence (cur : List SizeItem) (pI : List (String × ℚ))
    (pE : List (String × Nat)) (i : SizeItem) (p : ℚ)
    (hmem : i ∈ cur) (hnd : (cur.map (·.title)).Nodup)
    (hp : dictGet i.title pI = some p) :
    ((dictGet i.title pE).getD 0 < i.episode_count →
      (track_library_changes true cur pI pE).filter (fun r => r.title == i.title)
        = [⟨i.title, some p, i.size_gb, i.size_gb - p, .NEW_EPISODES⟩]) ∧
    (i.episode_count < (dictGet i.title pE).getD 0 →
      (track_library_changes true cur pI pE).filter (fun r => r.title == i.title)
        = [⟨i.title, some p, i.size_gb, i.size_gb - p, .REMOVED_EPISODES⟩]) ∧
    (i.episode_count = (dictGet i.title pE).getD 0 → (1 : ℚ)/100 < |i.size_gb - p| →
      (track_library_changes true cur pI pE).filter (fun r => r.title == i.title)
        = [⟨i.title, some p, i.size_gb, i.size_gb - p, .QUALITY_CHANGE⟩]) ∧
    (i.episode_count = (dictGet i.title pE).getD 0 → |i.size_gb - p| ≤ (1 : ℚ)/100 →
      (track_library_changes true cur pI pE).filter (fun r => r.title == i.title) = []) := by
  have hne : pI ≠ [] := dictGet_ne_nil _ _ _ hp
  have hsplit : (track_library_changes true cur pI pE).filter (fun r => r.title == i.title)
      = (classifyCurrentItem true pI pE i).toList := by
    unfold track_library_changes
    rw [if_neg hne, List.filter_append,
      filter_filterMap_classify true pI pE cur i hnd hmem,
      filter_removedItems cur pI i hmem, List.append_nil]
  refine ⟨?_, ?_, ?_, ?_⟩
  · intro hlt
    rw [hsplit]
    unfold classifyCurrentItem
    rw [hp]
    simp [hlt]
  · intro hlt
    rw [hsplit]
    unfold classifyCurrentItem
    rw [hp]
    simp [hlt, Nat.lt_asymm hlt]
  · intro heq hq
    rw [hsplit]
    unfold classifyCurrentItem
    rw [hp]
    simp only [heq, lt_irrefl, and_false, if_false, ite_false]
    rw [if_pos hq]
    rfl
  · intro heq hle
    rw [hsplit]
    unfold classifyCurrentItem
    rw [hp]
    simp only [heq, lt_irrefl, and_false, if_false, ite_false]
    rw [if_neg (not_lt.mpr hle)]
    rfl

/-- Witness for C8: spec scenario C, value 10.0 to 10.5 and count 12 to
13 gives a single NEW_EPISODES record, not QUALITY_CHANGE. -/
theorem C8_count_change_precedence_witness :
    (track_library_changes true [⟨"A", 21/2, 13⟩] [("A", 10)] [("A", 12)]).filter
        (fun r => r.title == "A")
      = [⟨"A", some 10, 21/2, 21/2 - 10, .NEW_EPISODES⟩] :=
  (C8_count_change_precedence [⟨"A", 21/2, 13⟩] [("A", 10)] [("A", 12)]
    ⟨"A", 21/2, 13⟩ 10 (by simp) (by simp) (by simp [dictGet])).1 (by simp [dictGet])

/- ----------------------------------------------------------------- -/
/- tv_status_tracker.py : the per-show decision of TVStatusTracker   -/
/- ----------------------------------------------------------------- -/

/-- The status categories of the `changes` dictionary of
`TVStatusTracker.run` (tv_status_tracker.py lines 516-526). -/
inductive StatusKey where
  | AIRING
  | SEASON_FINALE
  | MID_SEASON_FINALE
  | FINAL_EPISODE
  | SEASON_PREMIERE
  | RETURNING
  | ENDED
  | CANCELLED
  | DATE_CHANGED
deriving DecidableEq

/-- Whether the first list is an initial segment of the second. -/
def isStartOf : List Char → List Char → Bool
  | [], _ => true
  | _ :: _, [] => false
  | p :: ps, c :: cs => p = c && isStartOf ps cs

/-- Occurrence of `pat` anywhere in the list, as in the Python
substring operator. -/
def hasSub (pat : List Char) : List Char → Bool
  | [] => isStartOf pat []
  | c :: cs => isStartOf pat (c :: cs) || hasSub pat cs

/-- Python `pat in s` on strings. -/
def pyIn (pat s : String) : Bool := hasSub pat.data s.data

/-- The status-category chain run when a status change was detected
(tv_status_tracker.py lines 595-611). -/
def statusKeyOfText (text : String) : Option StatusKey :=
  if pyIn "AIRING" text then some .AIRING
  else if pyIn "SEASON FINALE" text then some .SEASON_FINALE
  else if pyIn "MID SEASON FINALE" text then some .MID_SEASON_FINALE
  else if pyIn "FINAL EPISODE" text then some .FINAL_EPISODE
  else if pyIn "SEASON PREMIERE" text then some .SEASON_PREMIERE
  else if pyIn "RETURNING" text then some .RETURNING
  else if pyIn "ENDED" text then some .ENDED
  else if pyIn "CANCELLED" text then some .CANCELLED
  else none

/-- The shorter chain run for a show with no previous entry
(tv_status_tracker.py lines 632-644). -/
def statusKeyOfNewText (text : String) : Option StatusKey :=
  if pyIn "AIRING" text then some .AIRING
  else if pyIn "SEASON FINALE" text then some .SEASON_FINALE
  else if pyIn "MID SEASON FINALE" text then some .MID_SEASON_FINALE
  else if pyIn "FINAL EPISODE" text then some .FINAL_EPISODE
  else if pyIn "SEASON PREMIERE" text then some .SEASON_PREMIERE
  else if pyIn "RETURNING" text then some .RETURNING
  else none

/-- The per-show snapshot entry stored in `current_status[show.title]`
(tv_status_tracker.py lines 572-576): the extracted first word, the
extracted date token (empty when none), and the full overlay text. -/
structure ShowState where
  status : String
  date : String
  text : String
deriving DecidableEq

/-- The dictionary appended to a `changes` category
(tv_status_tracker.py lines 617-625; `library` omitted). -/
structure TVChangeEntry where
  title : String
  prev_status : String
  new_status : String
  prev_date : String
  new_date : String
  full_text : String
deriving DecidableEq

/-- The change decision of `TVStatusTracker.run` for one show
(tv_status_tracker.py lines 578-673): given the previous snapshot entry
for this title (when present) and the freshly extracted state, return
the category and entry appended to `changes`, or `none` when nothing is
appended.  Python truthiness of `curr['date']` is nonemptiness. -/
def tvShowDecision (isFirstRun : Bool) (title : String)
    (prev : Option ShowState) (curr : ShowState) : Option (StatusKey × TVChangeEntry) :=
  match prev with
  | some p =>
    if (p.status ≠ curr.status) ∨ ((p.date ≠ curr.date) ∧ curr.date ≠ "") then
      match (if p.status ≠ curr.status then statusKeyOfText curr.text
             else if ((p.date ≠ curr.date) ∧ curr.date ≠ "") ∧ ¬ (p.status ≠ curr.status)
             then some .DATE_CHANGED else none) with
      | some k => some (k, ⟨title, p.status, curr.status, p.date, curr.date, curr.text⟩)
      | none => none
    else none
  | none =>
    if curr.status ≠ "ENDED" ∧ curr.status ≠ "CANCELLED" then
      match statusKeyOfNewText curr.text with
      | some k =>
        if isFirstRun then
          if curr.date ≠ "" ∨ k = .FINAL_EPISODE then
            some (k, ⟨title, "NEW", curr.status, "", curr.date, curr.text⟩)
          else none
        else some (k, ⟨title, "NEW", curr.status, "", curr.date, curr.text⟩)
      | none => none
    else none

/- ----------------------------------------------------------------- -/
/- Claim C10                                                         -/
/- ----------------------------------------------------------------- -/

/-- C10: for a show present in both snapshots with unchanged status
text, no change record is produced when the currently extracted date is
empty, even when the previous run recorded a nonempty date: a date
change is only reported when the new date is nonempty, so the removal
of an airing date is never reported. -/
theorem C10_empty_date_never_reported (isFirstRun : Bool) (title : String)
    (p curr : ShowState) (hstat : p.status = curr.status) (hdate : curr.date = "") :
    tvShowDecision isFirstRun title (some p) curr = none := by
  simp [tvShowDecision, hstat, hdate]

/-- Witness for C10: a show whose date disappears while the status
stays AIRING produces no record. -/
theorem C10_empty_date_never_reported_witness :
    tvShowDecision false "Show" (some ⟨"AIRING", "12/05", "AIRING 12/05"⟩)
      ⟨"AIRING", "", "AIRING"⟩ = none :=
  C10_empty_date_never_reported false "Show" ⟨"AIRING", "12/05", "AIRING 12/05"⟩
    ⟨"AIRING", "", "AIRING"⟩ (by decide) (by decide)

/- ----------------------------------------------------------------- -/
/- Claim C9                                                          -/
/- ----------------------------------------------------------------- -/

/-- C9 counterexample: on the very first run (no previous snapshot at
all), the TV status tracker still emits a per-show change record for a
new show carrying an airing date, so the engine does not record the
snapshot and report nothing (or only a coarse summary) in both
domains. -/
theorem C9_first_run_counterexample :
    tvShowDecision true "Show" none ⟨"AIRING", "12/05", "AIRING 12/05"⟩
      = some (.AIRING, ⟨"Show", "NEW", "AIRING", "", "12/05", "AIRING 12/05"⟩) := by
  decide

/-- C9 amended: on a first run neither domain floods the report with
one NEW record per observed item: the library-size domain records the
snapshot and reports nothing at all, while the show-status domain
reports only new shows that are neither ENDED nor CANCELLED and that
carry a date or a FINAL_EPISODE status. -/
theorem C9_first_run_policy :
    (∀ (isShow : Bool) (cur : List SizeItem) (pE : List (String × Nat)),
        track_library_changes isShow cur [] pE = []) ∧
    (∀ (title : String) (curr : ShowState) (k : StatusKey) (e : TVChangeEntry),
        tvShowDecision true title none curr = some (k, e) →
          curr.status ≠ "ENDED" ∧ curr.status ≠ "CANCELLED" ∧
            (curr.date ≠ "" ∨ k = .FINAL_EPISODE)) := by
  constructor
  · intro isShow cur pE
    simp [track_library_changes]
  · intro title curr k e h
    unfold tvShowDecision at h
    by_cases hs : curr.status ≠ "ENDED" ∧ curr.status ≠ "CANCELLED"
    · rw [if_pos hs] at h
      rcases hk : statusKeyOfNewText curr.text with _ | k2 <;> rw [hk] at h
      · cases h
      · simp only [if_true] at h
        by_cases hd : curr.date ≠ "" ∨ k2 = .FINAL_EPISODE
        · rw [if_pos hd] at h
          cases h
          exact ⟨hs.1, hs.2, hd⟩
        · rw [if_neg hd] at h
          cases h
    · rw [if_neg hs] at h
      cases h

/-- Witness for C9 amended, at a first-run show that is reported. -/
theorem C9_first_run_policy_witness :
    ("AIRING" : String) ≠ "ENDED" ∧ ("AIRING" : String) ≠ "CANCELLED" ∧
      (("12/05" : String) ≠ "" ∨ StatusKey.AIRING = .FINAL_EPISODE) :=
  C9_first_run_policy.2 "Show" ⟨"AIRING", "12/05", "AIRING 12/05"⟩ .AIRING
    ⟨"Show", "NEW", "AIRING", "", "12/05", "AIRING 12/05"⟩ (by decide)

/- ----------------------------------------------------------------- -/
/- notifications.py : notify_tv_status_updates packing (317-445)     -/
/- ----------------------------------------------------------------- -/

/-- The whitespace characters stripped by Python str.strip(). -/
def isPyWS (c : Char) : Bool :=
  c = ' ' || c = '\t' || c = '\n' || c = '\r' || c = '\x0b' || c = '\x0c'

/-- Python str.strip(): drop whitespace from both ends. -/
def pyStrip (s : String) : String :=
  ⟨((s.data.dropWhile isPyWS).reverse.dropWhile isPyWS).reverse⟩

/-- Python s.split(chr(10)): split at every newline, keeping empty
pieces. -/
def pySplitNL (s : String) : List String :=
  (s.data.splitOn '\n').map fun l => ⟨l⟩

/-- Python s[:n]. -/
def pyTake (s : String) (n : Nat) : String := ⟨s.data.take n⟩

/-- One status group handed to the packing loop: the display name of
the status and the per-show lines built at notifications.py lines
342-353 (one line per show, in date-sorted order). -/
structure NamedBlock where
  statusName : String
  lines : List String
deriving DecidableEq

/-- `shows_text` of notifications.py lines 341-353: every line followed
by a newline. -/
def showsTextOf : List String → String
  | [] => ""
  | l :: ls => l ++ "\n" ++ showsTextOf ls

/-- The chunking loop of notifications.py lines 386-403: greedily pack
whole lines into chunks of at most 1024 characters (counting the
newline after each line); each emitted chunk is stripped.  `cur` is
`current_chunk` and `chunks` the accumulator. -/
def chunkLines : List String → String → List String → List String
  | [], cur, chunks => if cur ≠ "" then chunks ++ [pyStrip cur] else chunks
  | l :: ls, cur, chunks =>
    if cur.length + l.length + 1 ≤ 1024 then chunkLines ls (cur ++ l ++ "\n") chunks
    else chunkLines ls (l ++ "\n") (if cur ≠ "" then chunks ++ [pyStrip cur] else chunks)

/-- Chunks of an oversized serialized block: the text is stripped,
split at newlines and greedily regrouped (notifications.py lines
386-403). -/
def chunksOfText (text : String) : List String :=
  chunkLines (pySplitNL (pyStrip text)) "" []

/-- One Discord embed field. -/
structure EmbedField where
  name : String
  value : String
deriving DecidableEq

/-- One Discord embed as built by the packing loop: the title, the
description (present on the first embed only) and the fields.  The
constant color key is omitted; it is equal on every embed. -/
structure Embed where
  title : String
  descr : Option String
  fields : List EmbedField
deriving DecidableEq

/-- The mutable state of the packing loop.  `closed` are embeds that
were appended to `all_embeds` and later replaced by a fresh
`current_embed`; `currCount` is how many times the live `current_embed`
object itself has been appended to `all_embeds` (Python appends the
reference, so later field additions are visible inside the list). -/
structure PackState where
  closed : List Embed
  curr : Embed
  currCount : Nat
  charCount : Nat

/-- Number of entries of `all_embeds`. -/
def nEmbeds (s : PackState) : Nat := s.closed.length + s.currCount

/-- The title of a continuation embed (notifications.py line 373). -/
def contTitle (title : String) : String := title ++ " (continued)"

/-- Python `x or "No details available"` on strings (lines 360, 412). -/
def orDefault (v : String) : String := if v = "" then "No details available" else v

/-- Append a field to the current embed and count its size into the
running budget (lines 380-384 / 432-436). -/
def pushField (s : PackState) (n v : String) : PackState :=
  { s with curr := { s.curr with fields := s.curr.fields ++ [⟨n, v⟩] },
           charCount := s.charCount + (n.length + v.length) }

/-- Lines 363-384 and 415-436 of notifications.py: before adding a
field, when the budget or the field count would overflow, append the
current embed to `all_embeds`; if `all_embeds` then holds 10 or more
embeds, stop (`break`) without adding the field, otherwise start a
fresh continuation embed and add the field to it.  The Bool of the
result reports the `break`. -/
def addField (title : String) (s : PackState) (n v : String) : PackState × Bool :=
  if 6000 < s.charCount + (n.length + v.length) ∨ 25 ≤ s.curr.fields.length then
    let s2 : PackState := { s with currCount := s.currCount + 1 }
    if 10 ≤ nEmbeds s2 then (s2, true)
    else
      let s3 : PackState := { closed := s2.closed ++ List.replicate s2.currCount s2.curr,
                              curr := ⟨contTitle title, none, []⟩,
                              currCount := 0,
                              charCount := (contTitle title).length }
      (pushField s3 n v, false)
  else (pushField s n v, false)

/-- `field_name` of notifications.py line 356. -/
def fieldNameOf (b : NamedBlock) : String :=
  pyTake (b.statusName ++ " (" ++ toString b.lines.length ++ ")") 256

/-- `chunk_name` for a continuation chunk, line 410. -/
def contFieldName (b : NamedBlock) (i : Nat) : String :=
  pyTake (b.statusName ++ " (continued " ++ toString i ++ ")") 256

/-- The `for i, chunk in enumerate(chunks)` loop of lines 406-436.  A
cap hit (`break` at line 421) abandons the remaining chunks of this
block only. -/
def addChunks (title : String) (b : NamedBlock) : List (Nat × String) → PackState → PackState
  | [], s => s
  | (i, c) :: rest, s =>
    match addField title s (if i = 0 then fieldNameOf b else contFieldName b i)
        (orDefault c) with
    | (s2, true) => s2
    | (s2, false) => addChunks title b rest s2

/-- Lines 333-436 for one status group: groups with no shows are
skipped (line 334); a short serialized text becomes one field whose cap
hit (`break` at line 369) stops the whole loop, reported by the Bool;
an oversized text is chunked and added chunk by chunk. -/
def processBlock (title : String) (s : PackState) (b : NamedBlock) : PackState × Bool :=
  if b.lines.isEmpty then (s, false)
  else if (showsTextOf b.lines).length ≤ 1024 then
    addField title s (fieldNameOf b) (orDefault (pyStrip (showsTextOf b.lines)))
  else
    (addChunks title b (chunksOfText (showsTextOf b.lines)).enum s, false)

/-- The `for status in order` loop (lines 333-436): process the blocks
in order until a short-field cap hit halts the loop. -/
def packBlocks (title : String) : List NamedBlock → PackState → PackState
  | [], s => s
  | b :: bs, s =>
    match processBlock title s b with
    | (s2, true) => s2
    | (s2, false) => packBlocks title bs s2

/-- Lines 438-440: append the final embed when it has fields, is not
already in `all_embeds` (Python membership is dictionary value
equality) and fewer than 10 embeds exist. -/
def finalize (s : PackState) : List Embed :=
  let all := s.closed ++ List.replicate s.currCount s.curr
  if s.curr.fields ≠ [] ∧ s.curr ∉ all ∧ all.length < 10 then all ++ [s.curr] else all

/-- The embed-packing portion of `notify_tv_status_updates`
(notifications.py lines 262-263 and 317-440): truncate title and
description as the code does, start the first embed with the
title-plus-description budget, pack every block and finalize.  The
result is the `all_embeds` list handed to the webhook payload. -/
def notifyPack (rawTitle rawMessage : String) (blocks : List NamedBlock) : List Embed :=
  let title := pyTake rawTitle 256
  let message := pyTake rawMessage 4096
  finalize (packBlocks title blocks
    ⟨[], ⟨title, some message, []⟩, 0, title.length + message.length⟩)

/-- The candidate field values produced from one block (lines 355-412),
independent of the batching state. -/
def blockFieldValues (ls : List String) : List String :=
  let text := showsTextOf ls
  if text.length ≤ 1024 then [orDefault (pyStrip text)]
  else (chunksOfText text).map orDefault

/-- Lines joined with single newline separators: the serialized text of
a NamedBlock in the sense of the specification. -/
def joinWithNL (ls : List String) : String :=
  ⟨List.intercalate ['\n'] (ls.map String.data)⟩

set_option maxRecDepth 2000000

/- ----------------------------------------------------------------- -/
/- Claim C1: counterexample                                          -/
/- ----------------------------------------------------------------- -/

/-- C1 counterexample: a block with a single 1025-character line is
packed into a batch whose field value is 1025 characters long, so the
1024-character bound on field values does not hold for every produced
batch. -/
theorem C1_capacity_counterexample :
    (notifyPack "T" "M" [⟨"S", [String.mk (List.replicate 1025 'a')]⟩]).any
      (fun e => e.fields.any (fun f => 1024 < f.value.length)) = true := by
  decide

/- ----------------------------------------------------------------- -/
/- Claim C2: counterexample                                          -/
/- ----------------------------------------------------------------- -/

/-- A short block whose single field has size 256 + 1023. -/
def c2shortBlock : NamedBlock :=
  ⟨String.mk (List.replicate 252 'n'), [String.mk (List.replicate 1023 'x')]⟩

/-- A block whose serialized text exceeds 1024 characters, forcing the
chunked path; its single overlong line is one chunk. -/
def c2chunkBlock : NamedBlock := ⟨"C", [String.mk (List.replicate 1300 'a')]⟩

/-- A final short block that overflows the already-capped embed. -/
def c2lastBlock : NamedBlock := ⟨"D", [String.mk (List.replicate 900 'b')]⟩

/-- C2 counterexample: 40 short blocks fill ten embeds; the chunked
block then hits the 10-embed cap inside the chunk loop, which only
abandons that block, and the following short block appends the same
current embed an eleventh time.  The packing returns 11 batches, more
than the claimed maximum of 10. -/
theorem C2_batch_cap_counterexample :
    10 < (notifyPack "T" "M"
      (List.replicate 40 c2shortBlock ++ [c2chunkBlock, c2lastBlock])).length := by
  decide

/- ----------------------------------------------------------------- -/
/- Claim C3: counterexample                                          -/
/- ----------------------------------------------------------------- -/

/-- C3 counterexample: a 1025-character line is passed through as a
single 1025-character chunk, with no hard truncation to 1004
characters and no truncation marker. -/
theorem C3_truncation_counterexample :
    chunksOfText (showsTextOf [String.mk (List.replicate 1025 'a')])
        = [String.mk (List.replicate 1025 'a')]
      ∧ 1024 < (String.mk (List.replicate 1025 'a')).length := by
  decide

/- ----------------------------------------------------------------- -/
/- Claim C4: counterexample                                          -/
/- ----------------------------------------------------------------- -/

/-- C4 counterexample: for a block of two 515-character lines the
serialized text exceeds 1024, each line becomes its own stripped
chunk, and plainly concatenating the two field values drops the
newline between them: the result differs from the block text under
either serialization (newline-joined or newline-terminated). -/
theorem C4_concat_counterexample :
    String.join (blockFieldValues [String.mk (List.replicate 515 'a'),
          String.mk (List.replicate 515 'b')])
        ≠ joinWithNL [String.mk (List.replicate 515 'a'), String.mk (List.replicate 515 'b')]
      ∧ String.join (blockFieldValues [String.mk (List.replicate 515 'a'),
          String.mk (List.replicate 515 'b')])
        ≠ showsTextOf [String.mk (List.replicate 515 'a'), String.mk (List.replicate 515 'b')] := by
  decide

/- ----------------------------------------------------------------- -/
/- Python string lemmas                                              -/
/- ----------------------------------------------------------------- -/

theorem string_length_append (a b : String) : (a ++ b).length = a.length + b.length :=
  List.length_append a.data b.data

theorem pyStrip_length_le (s : String) : (pyStrip s).length ≤ s.length := by
  show (((s.data.dropWhile isPyWS).reverse.dropWhile isPyWS).reverse).length ≤ s.data.length
  rw [List.length_reverse]
  calc (List.dropWhile isPyWS (s.data.dropWhile isPyWS).reverse).length
      ≤ (s.data.dropWhile isPyWS).reverse.length := (List.dropWhile_suffix _).length_le
    _ = (s.data.dropWhile isPyWS).length := List.length_reverse _
    _ ≤ s.data.length := (List.dropWhile_suffix _).length_le

/-- Appending a trailing newline does not change the stripped string. -/
theorem pyStrip_append_nl (s : String) : pyStrip (s ++ "\n") = pyStrip s := by
  have hdata : (s ++ "\n").data = s.data ++ ['\n'] := by simp
  simp only [pyStrip, hdata]
  rcases hdw : s.data.dropWhile isPyWS with _ | ⟨c, cs⟩
  · rw [List.dropWhile_append, hdw]
    simp [isPyWS]
  · rw [List.dropWhile_append, hdw]
    simp only [List.isEmpty_cons, Bool.false_eq_true, if_false]
    rw [List.reverse_append]
    simp [isPyWS]

/- ----------------------------------------------------------------- -/
/- Claim C3: amended theorem                                         -/
/- ----------------------------------------------------------------- -/

/-- Invariant form of the chunk-size bound: every chunk produced by
`chunkLines` is at most 1024 characters long, or is the strip of a
single overlong line of the input. -/
theorem chunkLines_bound (L0 : List String) :
    ∀ (ls : List String) (cur : String) (chunks : List String),
      (∀ l ∈ ls, l ∈ L0) →
      (∀ c ∈ chunks, c.length ≤ 1024 ∨ ∃ l ∈ L0, c = pyStrip l ∧ 1024 < l.length) →
      ((pyStrip cur).length ≤ 1024 ∨
        ∃ l ∈ L0, pyStrip cur = pyStrip l ∧ 1024 < l.length) →
      ∀ c ∈ chunkLines ls cur chunks,
        c.length ≤ 1024 ∨ ∃ l ∈ L0, c = pyStrip l ∧ 1024 < l.length
  | [], cur, chunks, _, hchunks, hcur => by
    unfold chunkLines
    split
    · intro c hc
      rcases List.mem_append.mp hc with h | h
      · exact hchunks c h
      · rw [List.mem_singleton.mp h]
        exact hcur
    · exact hchunks
  | l :: ls, cur, chunks, hsub, hchunks, hcur => by
    unfold chunkLines
    split
    · refine chunkLines_bound L0 ls _ chunks (fun x hx => hsub x (List.mem_cons_of_mem l hx))
        hchunks (Or.inl ?_)
      calc (pyStrip (cur ++ l ++ "\n")).length ≤ (cur ++ l ++ "\n").length :=
            pyStrip_length_le _
        _ = cur.length + l.length + 1 := by
            rw [string_length_append, string_length_append]
            rfl
        _ ≤ 1024 := by omega
    · refine chunkLines_bound L0 ls _ _ (fun x hx => hsub x (List.mem_cons_of_mem l hx)) ?_ ?_
      · intro c hc
        split at hc
        · rcases List.mem_append.mp hc with h | h
          · exact hchunks c h
          · rw [List.mem_singleton.mp h]
            exact hcur
        · exact hchunks c hc
      · rw [pyStrip_append_nl]
        by_cases hl : l.length ≤ 1024
        · exact Or.inl (le_trans (pyStrip_length_le l) hl)
        · exact Or.inr ⟨l, hsub l (List.mem_cons_self l ls), rfl, by omega⟩

/-- C3 amended: a serialized block is split only at line boundaries
into contiguous chunks; every chunk is at most 1024 characters long
except that a single line longer than 1024 characters becomes its own
chunk, passed through whole (stripped), with no hard truncation and no
truncation marker appended. -/
theorem C3_chunk_size (text : String) :
    ∀ c ∈ chunksOfText text,
      c.length ≤ 1024 ∨
        ∃ l ∈ pySplitNL (pyStrip text), c = pyStrip l ∧ 1024 < l.length := by
  refine chunkLines_bound (pySplitNL (pyStrip text)) (pySplitNL (pyStrip text)) "" []
    (fun l hl => hl) (by simp) (Or.inl (by decide))

/-- Witness for C3 amended at a one-line block. -/
theorem C3_chunk_size_witness :
    ("a" : String).length ≤ 1024 ∨
      ∃ l ∈ pySplitNL (pyStrip (showsTextOf ["a"])),
        ("a" : String) = pyStrip l ∧ 1024 < l.length :=
  C3_chunk_size (showsTextOf ["a"]) "a" (by decide)

/- ----------------------------------------------------------------- -/
/- Claim C2: amended theorem                                         -/
/- ----------------------------------------------------------------- -/

/-- Cap behavior of a single field addition: starting below ten
embeds, a halted addition leaves at most ten and a completed addition
leaves at most nine. -/
theorem addField_cap (title : String) (s : PackState) (n v : String)
    (h : nEmbeds s ≤ 9) :
    ((addField title s n v).2 = true → nEmbeds (addField title s n v).1 ≤ 10) ∧
    ((addField title s n v).2 = false → nEmbeds (addField title s n v).1 ≤ 9) := by
  unfold addField
  split
  · dsimp only
    split
    next hcap =>
      refine ⟨fun _ => ?_, fun hc => by simp at hc⟩
      simp only [nEmbeds] at *
      omega
    next hcap =>
      refine ⟨fun hc => by simp at hc, fun _ => ?_⟩
      simp only [nEmbeds, pushField, List.length_append, List.length_replicate] at *
      omega
  · refine ⟨fun hc => by simp at hc, fun _ => ?_⟩
    simpa [nEmbeds, pushField] using h

/-- Cap behavior of one block whose serialized text fits in a single
field. -/
theorem processBlock_short_cap (title : String) (s : PackState) (b : NamedBlock)
    (hb : (showsTextOf b.lines).length ≤ 1024) (h : nEmbeds s ≤ 9) :
    ((processBlock title s b).2 = true → nEmbeds (processBlock title s b).1 ≤ 10) ∧
    ((processBlock title s b).2 = false → nEmbeds (processBlock title s b).1 ≤ 9) := by
  unfold processBlock
  split
  · exact ⟨fun hc => by simp at hc, fun _ => h⟩
  · exact addField_cap title s _ _ h

/-- When every block is short, the loop never exceeds ten embeds. -/
theorem packBlocks_short_cap (title : String) (bs : List NamedBlock) :
    ∀ (s : PackState), (∀ b ∈ bs, (showsTextOf b.lines).length ≤ 1024) →
      nEmbeds s ≤ 9 → nEmbeds (packBlocks title bs s) ≤ 10 := by
  induction bs with
  | nil =>
    intro s _ h
    unfold packBlocks
    omega
  | cons b t ih =>
    intro s hb h
    unfold packBlocks
    have hc := processBlock_short_cap title s b (hb b (by simp)) h
    rcases hr : processBlock title s b with ⟨s2, b2⟩
    rw [hr] at hc
    cases b2 with
    | true => exact hc.1 rfl
    | false => exact ih s2 (fun x hx => hb x (List.mem_cons_of_mem b hx)) (hc.2 rfl)

/-- Finalizing never pushes the count past ten. -/
theorem finalize_length_cap (s : PackState) (h : nEmbeds s ≤ 10) :
    (finalize s).length ≤ 10 := by
  unfold finalize
  dsimp only
  split
  next hcond =>
    simp only [List.length_append, List.length_replicate, List.length_singleton]
    have := hcond.2.2
    simp only [List.length_append, List.length_replicate] at this
    omega
  · simp only [List.length_append, List.length_replicate]
    simpa [nEmbeds] using h

/-- C2 amended: when every block serializes to at most 1024 characters
(the single-field path, whose cap hit stops packing at once), at most
10 batches are produced.  When a block must be chunked, a cap hit
inside its chunk loop abandons only that block, later blocks can append
the live embed again, and more than 10 batches can be returned
(see the counterexample); the truncation is only logged, never
returned. -/
theorem C2_short_blocks_cap (rawTitle rawMessage : String) (blocks : List NamedBlock)
    (hb : ∀ b ∈ blocks, (showsTextOf b.lines).length ≤ 1024) :
    (notifyPack rawTitle rawMessage blocks).length ≤ 10 := by
  unfold notifyPack
  exact finalize_length_cap _
    (packBlocks_short_cap _ blocks _ hb (by simp [nEmbeds]))

/-- Witness for C2 amended at a two-block input. -/
theorem C2_short_blocks_cap_witness :
    (notifyPack "T" "M" [⟨"A", ["x"]⟩, ⟨"B", ["y", "z"]⟩]).length ≤ 10 :=
  C2_short_blocks_cap "T" "M" [⟨"A", ["x"]⟩, ⟨"B", ["y", "z"]⟩] (by decide)

/- ----------------------------------------------------------------- -/
/- Clean report lines and serialization lemmas                       -/
/- ----------------------------------------------------------------- -/

/-- The shape of the report lines the code builds ("• Title ..."):
nonempty, no leading or trailing whitespace, no embedded newline. -/
def cleanLineB (s : String) : Bool :=
  !s.data.isEmpty && !(isPyWS (s.data.headD ' ')) && !(isPyWS (s.data.getLastD ' ')) &&
    s.data.all (fun c => c ≠ '\n')

theorem string_append_empty (s : String) : s ++ "" = s :=
  String.ext (by simp)

theorem joinWithNL_single (l : String) : joinWithNL [l] = l :=
  String.ext (by simp [joinWithNL, List.intercalate])

theorem joinWithNL_cons (l : String) (ls : List String) (h : ls ≠ []) :
    joinWithNL (l :: ls) = l ++ "\n" ++ joinWithNL ls := by
  rcases ls with _ | ⟨e, t⟩
  · exact absurd rfl h
  · refine String.ext ?_
    show List.intercalate ['\n'] (l.data :: e.data :: t.map String.data)
        = (l ++ "\n").data ++ List.intercalate ['\n'] (e.data :: t.map String.data)
    simp [List.intercalate, List.intersperse_cons_cons]

theorem showsTextOf_eq_join (ls : List String) (h : ls ≠ []) :
    showsTextOf ls = joinWithNL ls ++ "\n" := by
  induction ls with
  | nil => exact absurd rfl h
  | cons l t ih =>
    rcases t with _ | ⟨e, t2⟩
    · show l ++ "\n" ++ "" = joinWithNL [l] ++ "\n"
      rw [string_append_empty, joinWithNL_single]
    · show l ++ "\n" ++ showsTextOf (e :: t2) = joinWithNL (l :: e :: t2) ++ "\n"
      rw [ih (by simp), joinWithNL_cons l (e :: t2) (by simp)]
      exact String.ext (by simp)

/-- A string whose first and last characters are not whitespace is its
own strip. -/
theorem pyStrip_eq_self (s : String)
    (h1 : ∀ c, s.data.head? = some c → isPyWS c = false)
    (h2 : ∀ c, s.data.getLast? = some c → isPyWS c = false) :
    pyStrip s = s := by
  have hd : s.data.dropWhile isPyWS = s.data := by
    rcases hc : s.data with _ | ⟨c, rest⟩
    · rfl
    · exact List.dropWhile_cons_of_neg (by simp [h1 c (by rw [hc]; rfl)])
  have hr : s.data.reverse.dropWhile isPyWS = s.data.reverse := by
    rcases hc : s.data.reverse with _ | ⟨c, rest⟩
    · rfl
    · have hlast : s.data.getLast? = some c := by
        rw [← List.head?_reverse, hc]
        rfl
      exact List.dropWhile_cons_of_neg (by simp [h2 c hlast])
  refine String.ext ?_
  show ((s.data.dropWhile isPyWS).reverse.dropWhile isPyWS).reverse = s.data
  rw [hd, hr, List.reverse_reverse]

/-- The newline-join keeps the first character of a nonempty first
line. -/
theorem joinWithNL_head (l : String) (ls : List String) (hl : l.data ≠ []) :
    (joinWithNL (l :: ls)).data.head? = l.data.head? := by
  rcases ls with _ | ⟨e, t⟩
  · rw [joinWithNL_single]
  · rw [joinWithNL_cons l (e :: t) (by simp)]
    rcases hc : l.data with _ | ⟨c, r⟩
    · exact absurd hc hl
    · simp [hc]

/-- The newline-join of nonempty lines ends with the last character of
the last line. -/
theorem joinWithNL_getLast (ls : List String) (l : String) :
    ∀ (_hall : ∀ x ∈ l :: ls, x.data ≠ []),
      ∃ z, (l :: ls).getLast? = some z ∧
        (joinWithNL (l :: ls)).data.getLast? = z.data.getLast? := by
  induction ls generalizing l with
  | nil =>
    intro _
    exact ⟨l, rfl, by rw [joinWithNL_single]⟩
  | cons e t ih =>
    intro hall
    obtain ⟨z, hz1, hz2⟩ := ih e (fun x hx => hall x (List.mem_cons_of_mem l hx))
    have hne : (joinWithNL (e :: t)).data ≠ [] := by
      intro hemp
      have := joinWithNL_head e t (hall e (by simp))
      rw [hemp] at this
      rcases hc : e.data with _ | ⟨c, r⟩
      · exact hall e (by simp) hc
      · rw [hc] at this
        simp at this
    refine ⟨z, by simpa using hz1, ?_⟩
    rw [joinWithNL_cons l (e :: t) (by simp)]
    have hdata : (l ++ "\n" ++ joinWithNL (e :: t)).data
        = (l ++ "\n").data ++ (joinWithNL (e :: t)).data := by simp
    rw [hdata, List.getLast?_append]
    rcases hlast : (joinWithNL (e :: t)).data.getLast? with _ | z2
    · exact absurd (List.getLast?_eq_none_iff.mp hlast) hne
    · rw [hlast] at hz2
      simpa [hz2] using hz2.symm ▸ rfl

theorem cleanLineB_spec (l : String) (h : cleanLineB l = true) :
    l.data ≠ [] ∧ (∀ c, l.data.head? = some c → isPyWS c = false) ∧
      (∀ c, l.data.getLast? = some c → isPyWS c = false) ∧ ∀ c ∈ l.data, c ≠ '\n' := by
  rcases hc : l.data with _ | ⟨c, rest⟩
  · exfalso
    simp [cleanLineB, hc] at h
  · simp only [cleanLineB, hc, Bool.and_eq_true, Bool.not_eq_true', List.all_eq_true] at h
    obtain ⟨⟨⟨_, hhead⟩, hlast⟩, hnl⟩ := h
    refine ⟨by simp, ?_, ?_, ?_⟩
    · intro d hd
      rw [show (c :: rest).head? = some c from rfl] at hd
      cases hd
      simpa using hhead
    · intro d hd
      have : (c :: rest).getLastD ' ' = d := by
        rw [List.getLastD_eq_getLast?, hd]
        rfl
      rw [← this]
      exact hlast
    · intro d hd
      simpa using hnl d hd

theorem pyStrip_joinWithNL (ls : List String) (h : ls ≠ [])
    (hc : ∀ l ∈ ls, cleanLineB l = true) :
    pyStrip (joinWithNL ls) = joinWithNL ls := by
  rcases ls with _ | ⟨l, t⟩
  · exact absurd rfl h
  apply pyStrip_eq_self
  · intro c hcc
    obtain ⟨hne, hhead, _, _⟩ := cleanLineB_spec l (hc l (by simp))
    rw [joinWithNL_head l t hne] at hcc
    exact hhead c hcc
  · intro c hcc
    obtain ⟨z, hz1, hz2⟩ := joinWithNL_getLast t l
      (fun x hx => (cleanLineB_spec x (hc x hx)).1)
    rw [hz2] at hcc
    have hzmem : z ∈ l :: t := by
      rw [List.getLast?_eq_getLast (l :: t) (by simp)] at hz1
      cases hz1
      exact List.getLast_mem _
    exact (cleanLineB_spec z (hc z hzmem)).2.2.1 c hcc

theorem pySplit_joinWithNL (ls : List String) (h : ls ≠ [])
    (hc : ∀ l ∈ ls, cleanLineB l = true) :
    pySplitNL (joinWithNL ls) = ls := by
  unfold pySplitNL joinWithNL
  rw [show (String.mk (List.intercalate ['\n'] (ls.map String.data))).data
      = List.intercalate ['\n'] (ls.map String.data) from rfl]
  rw [List.splitOn_intercalate (ls.map String.data) '\n'
    (by
      intro d hd hmem
      obtain ⟨l, hl, rfl⟩ := List.mem_map.mp hd
      exact (cleanLineB_spec l (hc l hl)).2.2.2 '\n' hmem rfl)
    (by simpa using h)]
  rw [List.map_map]
  exact List.map_id'' (fun x => rfl) ls

/-- For a nonempty block of clean lines, stripping and splitting the
serialized text recovers exactly the lines. -/
theorem splitStrip_showsTextOf (ls : List String) (h : ls ≠ [])
    (hc : ∀ l ∈ ls, cleanLineB l = true) :
    pySplitNL (pyStrip (showsTextOf ls)) = ls := by
  rw [showsTextOf_eq_join ls h, pyStrip_append_nl, pyStrip_joinWithNL ls h hc,
    pySplit_joinWithNL ls h hc]

theorem showsTextOf_ne_empty (l : String) (ls : List String) : showsTextOf (l :: ls) ≠ "" := by
  intro h
  have hd : (showsTextOf (l :: ls)).data = [] := by rw [h]
  rw [show (showsTextOf (l :: ls)).data = l.data ++ '\n' :: (showsTextOf ls).data from by
    simp [showsTextOf]] at hd
  simp at hd

theorem showsTextOf_append (xs ys : List String) :
    showsTextOf (xs ++ ys) = showsTextOf xs ++ showsTextOf ys := by
  induction xs with
  | nil =>
    show showsTextOf ys = "" ++ showsTextOf ys
    exact String.ext (by simp)
  | cons x t ih =>
    show x ++ "\n" ++ showsTextOf (t ++ ys) = x ++ "\n" ++ showsTextOf t ++ showsTextOf ys
    rw [ih]
    exact String.ext (by simp)

/-- The chunking loop groups the (clean) input lines into contiguous
nonempty groups and emits each group joined with newlines. -/
theorem chunkLines_groups (ls : List String) :
    ∀ (pref chunks : List String),
      (∀ l ∈ ls, cleanLineB l = true) → (∀ l ∈ pref, cleanLineB l = true) →
      ∃ groups : List (List String),
        chunkLines ls (showsTextOf pref) chunks = chunks ++ groups.map joinWithNL ∧
        groups.flatten = pref ++ ls ∧ ∀ g ∈ groups, g ≠ [] := by
  induction ls with
  | nil =>
    intro pref chunks _ hpref
    rcases pref with _ | ⟨p, pt⟩
    · refine ⟨[], ?_, by simp, by simp⟩
      show chunkLines [] "" chunks = chunks ++ []
      simp [chunkLines]
    · have hstrip : pyStrip (showsTextOf (p :: pt)) = joinWithNL (p :: pt) := by
        rw [showsTextOf_eq_join _ (by simp), pyStrip_append_nl,
          pyStrip_joinWithNL _ (by simp) hpref]
      refine ⟨[p :: pt], ?_, by simp, by simp⟩
      show (if showsTextOf (p :: pt) ≠ "" then chunks ++ [pyStrip (showsTextOf (p :: pt))]
          else chunks) = chunks ++ [joinWithNL (p :: pt)]
      rw [if_pos (showsTextOf_ne_empty p pt), hstrip]
  | cons l ls ih =>
    intro pref chunks hls hpref
    have hlclean : cleanLineB l = true := hls l (by simp)
    have hlsclean : ∀ x ∈ ls, cleanLineB x = true :=
      fun x hx => hls x (List.mem_cons_of_mem l hx)
    have hcurl : showsTextOf [l] = l ++ "\n" := String.ext (by simp [showsTextOf])
    by_cases hfit : (showsTextOf pref).length + l.length + 1 ≤ 1024
    · have hcur2 : showsTextOf (pref ++ [l]) = showsTextOf pref ++ l ++ "\n" := by
        rw [showsTextOf_append pref [l], hcurl]
        exact String.ext (by simp)
      have hstep : chunkLines (l :: ls) (showsTextOf pref) chunks
          = chunkLines ls (showsTextOf (pref ++ [l])) chunks := by
        rw [hcur2, chunkLines, if_pos hfit]
      obtain ⟨groups, hg1, hg2, hg3⟩ := ih (pref ++ [l]) chunks hlsclean
        (by
          intro x hx
          rcases List.mem_append.mp hx with h | h
          · exact hpref x h
          · rw [List.mem_singleton.mp h]
            exact hlclean)
      refine ⟨groups, hstep ▸ hg1, hg2.trans (by simp), hg3⟩
    · rcases pref with _ | ⟨p, pt⟩
      · have hstep : chunkLines (l :: ls) (showsTextOf []) chunks
            = chunkLines ls (showsTextOf [l]) chunks := by
          rw [hcurl, chunkLines, if_neg hfit, if_neg (by simp [showsTextOf])]
        obtain ⟨groups, hg1, hg2, hg3⟩ := ih [l] chunks hlsclean
          (by
            intro x hx
            rw [List.mem_singleton.mp hx]
            exact hlclean)
        exact ⟨groups, hstep ▸ hg1, by simpa using hg2, hg3⟩
      · have hstrip : pyStrip (showsTextOf (p :: pt)) = joinWithNL (p :: pt) := by
          rw [showsTextOf_eq_join _ (by simp), pyStrip_append_nl,
            pyStrip_joinWithNL _ (by simp) hpref]
        have hstep : chunkLines (l :: ls) (showsTextOf (p :: pt)) chunks
            = chunkLines ls (showsTextOf [l]) (chunks ++ [joinWithNL (p :: pt)]) := by
          rw [hcurl, chunkLines, if_neg hfit, if_pos (showsTextOf_ne_empty p pt), hstrip]
        obtain ⟨groups, hg1, hg2, hg3⟩ := ih [l] (chunks ++ [joinWithNL (p :: pt)]) hlsclean
          (by
            intro x hx
            rw [List.mem_singleton.mp hx]
            exact hlclean)
        refine ⟨(p :: pt) :: groups, ?_, ?_, ?_⟩
        · rw [hstep, hg1]
          simp
        · simp only [List.flatten_cons, hg2]
          simp
        · intro g hg
          rcases List.mem_cons.mp hg with rfl | hg2m
          · simp
          · exact hg3 g hg2m

theorem joinWithNL_ne_empty (l : String) (ls : List String) (hl : l.data ≠ []) :
    joinWithNL (l :: ls) ≠ "" := by
  intro h
  have hh := joinWithNL_head l ls hl
  rw [h] at hh
  rcases hc : l.data with _ | ⟨c, r⟩
  · exact hl hc
  · rw [hc] at hh
    simp at hh

theorem joinWithNL_append (xs ys : List String) (hx : xs ≠ []) (hy : ys ≠ []) :
    joinWithNL (xs ++ ys) = joinWithNL xs ++ "\n" ++ joinWithNL ys := by
  induction xs with
  | nil => exact absurd rfl hx
  | cons x t ih =>
    rcases t with _ | ⟨e, t2⟩
    · rcases ys with _ | ⟨y, yt⟩
      · exact absurd rfl hy
      · rw [show ([x] : List String) ++ y :: yt = x :: y :: yt from rfl,
          joinWithNL_cons x (y :: yt) (by simp), joinWithNL_single]
    · rw [show (x :: e :: t2) ++ ys = x :: ((e :: t2) ++ ys) from rfl,
        joinWithNL_cons x ((e :: t2) ++ ys) (by simp),
        ih (by simp), joinWithNL_cons x (e :: t2) (by simp)]
      exact String.ext (by simp)

theorem joinWithNL_map_flatten (groups : List (List String)) (h : ∀ g ∈ groups, g ≠ []) :
    joinWithNL (groups.map joinWithNL) = joinWithNL groups.flatten := by
  induction groups with
  | nil => rfl
  | cons g t ih =>
    rcases t with _ | ⟨g2, t2⟩
    · show joinWithNL [joinWithNL g] = joinWithNL (g ++ [].flatten)
      rw [joinWithNL_single]
      congr 1
      simp
    · have hg : g ≠ [] := h g (by simp)
      have hg2 : g2 ≠ [] := h g2 (by simp)
      have hflat : (g2 :: t2).flatten ≠ [] := by
        rcases hgc : g2 with _ | ⟨a, r⟩
        · exact absurd hgc hg2
        · simp [hgc]
      show joinWithNL (joinWithNL g :: (g2 :: t2).map joinWithNL)
          = joinWithNL (g ++ (g2 :: t2).flatten)
      rw [joinWithNL_cons (joinWithNL g) ((g2 :: t2).map joinWithNL) (by simp),
        ih (fun x hx => h x (List.mem_cons_of_mem g hx)),
        joinWithNL_append g (g2 :: t2).flatten hg hflat]

/-- C4 amended: for a nonempty block of clean lines (nonempty, no
embedded newline, no leading or trailing whitespace, as the code
produces), joining the field values of all chunks of the block with
single newlines reproduces the serialized block text exactly.  Plain
concatenation does not: the newline at each chunk boundary lives in no
field value (see the counterexample). -/
theorem C4_content_preservation (ls : List String) (h : ls ≠ [])
    (hc : ∀ l ∈ ls, cleanLineB l = true) :
    joinWithNL (blockFieldValues ls) = joinWithNL ls := by
  rcases ls with _ | ⟨l0, lt⟩
  · exact absurd rfl h
  have hstrip : pyStrip (showsTextOf (l0 :: lt)) = joinWithNL (l0 :: lt) := by
    rw [showsTextOf_eq_join _ (by simp), pyStrip_append_nl,
      pyStrip_joinWithNL _ (by simp) hc]
  have hne : joinWithNL (l0 :: lt) ≠ "" :=
    joinWithNL_ne_empty l0 lt (cleanLineB_spec l0 (hc l0 (by simp))).1
  unfold blockFieldValues
  dsimp only
  by_cases hlen : (showsTextOf (l0 :: lt)).length ≤ 1024
  · rw [if_pos hlen, hstrip]
    rw [show orDefault (joinWithNL (l0 :: lt)) = joinWithNL (l0 :: lt) from by
      simp [orDefault, hne]]
    exact joinWithNL_single _
  · rw [if_neg hlen]
    unfold chunksOfText
    rw [splitStrip_showsTextOf (l0 :: lt) (by simp) hc]
    obtain ⟨groups, hg1, hg2, hg3⟩ := chunkLines_groups (l0 :: lt) [] [] hc (by simp)
    rw [show chunkLines (l0 :: lt) "" [] = chunkLines (l0 :: lt) (showsTextOf []) [] from rfl,
      hg1]
    simp only [List.nil_append]
    have hord : ∀ c ∈ groups.map joinWithNL, orDefault c = c := by
      intro c hcm
      obtain ⟨g, hgm, rfl⟩ := List.mem_map.mp hcm
      rcases hgc : g with _ | ⟨a, r⟩
      · exact absurd hgc (hg3 g hgm)
      · have hg2x : groups.flatten = l0 :: lt := by simpa using hg2
        have hamem : a ∈ (l0 :: lt) := by
          rw [← hg2x]
          exact List.mem_flatten.mpr ⟨g, hgm, by rw [hgc]; simp⟩
        have : joinWithNL (a :: r) ≠ "" :=
          joinWithNL_ne_empty a r (cleanLineB_spec a (hc a hamem)).1
        simp [orDefault, this]
    rw [List.map_congr_left hord, List.map_id', joinWithNL_map_flatten groups hg3]
    rw [show groups.flatten = l0 :: lt from by simpa using hg2]

/-- Witness for C4 amended at a two-line block. -/
theorem C4_content_preservation_witness :
    joinWithNL (blockFieldValues ["alpha", "beta"]) = joinWithNL ["alpha", "beta"] :=
  C4_content_preservation ["alpha", "beta"] (by simp) (by decide)

/- ----------------------------------------------------------------- -/
/- Claim C1: amended theorem                                         -/
/- ----------------------------------------------------------------- -/

/-- The title and description overhead counted into the running budget
of an embed. -/
def overheadOf (e : Embed) : Nat :=
  e.title.length + (match e.descr with | some d => d.length | none => 0)

/-- Total name-plus-value size of the fields of an embed. -/
def fieldsSize (e : Embed) : Nat :=
  (e.fields.map (fun f => f.name.length + f.value.length)).sum

/-- The three capacity bounds claimed for every produced batch. -/
def embedCapsOK (e : Embed) : Prop :=
  e.fields.length ≤ 25 ∧ overheadOf e + fieldsSize e ≤ 6000 ∧
    ∀ f ∈ e.fields, f.value.length ≤ 1024

/-- Invariant of the packing state: the running budget equals the
overhead plus the field sizes of the current embed, stays within 6000,
and every closed embed satisfies all bounds. -/
def stInv (s : PackState) : Prop :=
  s.charCount = overheadOf s.curr + fieldsSize s.curr ∧
  s.charCount ≤ 6000 ∧ s.curr.fields.length ≤ 25 ∧
  (∀ f ∈ s.curr.fields, f.value.length ≤ 1024) ∧
  ∀ e ∈ s.closed, embedCapsOK e

theorem contTitle_length (t : String) : (contTitle t).length = t.length + 12 := by
  rw [contTitle, string_length_append]
  rfl

theorem pyTake_length_le (s : String) (n : Nat) : (pyTake s n).length ≤ n := by
  show (s.data.take n).length ≤ n
  simp [List.length_take]

theorem orDefault_length_le (v : String) (h : v.length ≤ 1024) :
    (orDefault v).length ≤ 1024 := by
  unfold orDefault
  split
  · decide
  · exact h

theorem addField_inv (title : String) (s : PackState) (n v : String)
    (htl : title.length ≤ 256) (hn : n.length ≤ 256) (hv : v.length ≤ 1024)
    (hinv : stInv s) : stInv (addField title s n v).1 := by
  obtain ⟨h1, h2, h3, h4, h5⟩ := hinv
  unfold addField
  split
  next htrip =>
    dsimp only
    split
    next hcap => exact ⟨h1, h2, h3, h4, h5⟩
    next hcap =>
      have hct := contTitle_length title
      refine ⟨?_, ?_, ?_, ?_, ?_⟩
      · simp [pushField, overheadOf, fieldsSize]
      · simp only [pushField]
        show (contTitle title).length + (n.length + v.length) ≤ 6000
        omega
      · simp [pushField]
      · intro f hf
        simp only [pushField, List.nil_append, List.mem_singleton] at hf
        rw [hf]
        exact hv
      · intro e he
        simp only [pushField] at he
        rcases List.mem_append.mp he with hmem | hmem
        · exact h5 e hmem
        · rw [List.eq_of_mem_replicate hmem]
          exact ⟨h3, by rw [← h1]; exact h2, h4⟩
  next htrip =>
    push_neg at htrip
    obtain ⟨hbudget, hcount⟩ := htrip
    have hov : overheadOf { s.curr with fields := s.curr.fields ++ [(⟨n, v⟩ : EmbedField)] }
        = overheadOf s.curr := rfl
    have hfs : fieldsSize { s.curr with fields := s.curr.fields ++ [(⟨n, v⟩ : EmbedField)] }
        = fieldsSize s.curr + (n.length + v.length) := by
      simp [fieldsSize]
    refine ⟨?_, ?_, ?_, ?_, ?_⟩
    · show s.charCount + (n.length + v.length)
        = overheadOf { s.curr with fields := s.curr.fields ++ [(⟨n, v⟩ : EmbedField)] }
          + fieldsSize { s.curr with fields := s.curr.fields ++ [(⟨n, v⟩ : EmbedField)] }
      rw [hov, hfs]
      omega
    · show s.charCount + (n.length + v.length) ≤ 6000
      omega
    · show (s.curr.fields ++ [(⟨n, v⟩ : EmbedField)]).length ≤ 25
      simp only [List.length_append, List.length_singleton]
      omega
    · intro f hf
      have hf2 : f ∈ s.curr.fields ++ [(⟨n, v⟩ : EmbedField)] := hf
      rcases List.mem_append.mp hf2 with hmem | hmem
      · exact h4 f hmem
      · rw [List.mem_singleton.mp hmem]
        exact hv
    · exact h5

theorem addChunks_inv (title : String) (b : NamedBlock) (pairs : List (Nat × String)) :
    ∀ (s : PackState), title.length ≤ 256 →
      (∀ p ∈ pairs, (orDefault p.2).length ≤ 1024) → stInv s →
      stInv (addChunks title b pairs s) := by
  induction pairs with
  | nil => exact fun s _ _ hinv => hinv
  | cons p rest ih =>
    intro s htl hp hinv
    rcases p with ⟨i, c⟩
    have hn : (if i = 0 then fieldNameOf b else contFieldName b i).length ≤ 256 := by
      split
      · exact pyTake_length_le _ 256
      · exact pyTake_length_le _ 256
    have hadd := addField_inv title s (if i = 0 then fieldNameOf b else contFieldName b i)
      (orDefault c) htl hn (hp (i, c) (by simp)) hinv
    rcases hr : addField title s (if i = 0 then fieldNameOf b else contFieldName b i)
        (orDefault c) with ⟨s2, b2⟩
    rw [hr] at hadd
    rw [addChunks, hr]
    cases b2 with
    | true => exact hadd
    | false => exact ih s2 htl (fun q hq => hp q (List.mem_cons_of_mem _ hq)) hadd

theorem processBlock_inv (title : String) (s : PackState) (b : NamedBlock)
    (htl : title.length ≤ 256)
    (hbl : ∀ l ∈ b.lines, cleanLineB l = true ∧ l.length ≤ 1024)
    (hinv : stInv s) : stInv (processBlock title s b).1 := by
  unfold processBlock
  split
  · exact hinv
  next hemp =>
    split
    next hshort =>
      refine addField_inv title s _ _ htl (pyTake_length_le _ 256) ?_ hinv
      exact orDefault_length_le _ (le_trans (pyStrip_length_le _) hshort)
    next hlong =>
      have hnil : b.lines ≠ [] := by
        intro hn
        rw [hn] at hemp
        exact hemp rfl
      have hsplit : pySplitNL (pyStrip (showsTextOf b.lines)) = b.lines :=
        splitStrip_showsTextOf b.lines hnil (fun l hl => (hbl l hl).1)
      refine addChunks_inv title b _ s htl ?_ hinv
      intro p hp
      have hmem : p.2 ∈ chunksOfText (showsTextOf b.lines) := by
        rcases p with ⟨i, c⟩
        exact List.getElem?_mem ((List.mk_mem_enum_iff_getElem?).mp hp)
      refine orDefault_length_le _ ?_
      have hbound := chunkLines_bound (pySplitNL (pyStrip (showsTextOf b.lines)))
        (pySplitNL (pyStrip (showsTextOf b.lines))) "" [] (fun x hx => hx) (by simp)
        (Or.inl (by decide)) p.2 hmem
      rw [hsplit] at hbound
      rcases hbound with hle | ⟨l, hl, _, hgt⟩
      · exact hle
      · exact absurd hgt (not_lt.mpr (hbl l hl).2)

theorem packBlocks_inv (title : String) (bs : List NamedBlock) :
    ∀ (s : PackState), title.length ≤ 256 →
      (∀ b ∈ bs, ∀ l ∈ b.lines, cleanLineB l = true ∧ l.length ≤ 1024) →
      stInv s → stInv (packBlocks title bs s) := by
  induction bs with
  | nil => exact fun s _ _ hinv => hinv
  | cons b t ih =>
    intro s htl hb hinv
    have hpb := processBlock_inv title s b htl (hb b (by simp)) hinv
    rcases hr : processBlock title s b with ⟨s2, b2⟩
    rw [hr] at hpb
    rw [packBlocks, hr]
    cases b2 with
    | true => exact hpb
    | false => exact ih s2 htl (fun x hx => hb x (List.mem_cons_of_mem b hx)) hpb

theorem finalize_embedCapsOK (s : PackState) (hinv : stInv s) :
    ∀ e ∈ finalize s, embedCapsOK e := by
  obtain ⟨h1, h2, h3, h4, h5⟩ := hinv
  have hcurr : embedCapsOK s.curr := ⟨h3, by rw [← h1]; exact h2, h4⟩
  have hall : ∀ e ∈ s.closed ++ List.replicate s.currCount s.curr, embedCapsOK e := by
    intro e he
    rcases List.mem_append.mp he with hmem | hmem
    · exact h5 e hmem
    · rw [List.eq_of_mem_replicate hmem]
      exact hcurr
  unfold finalize
  dsimp only
  split
  · intro e he
    rcases List.mem_append.mp he with hmem | hmem
    · exact hall e hmem
    · rw [List.mem_singleton.mp hmem]
      exact hcurr
  · exact hall

/-- Field-count invariant alone, with no hypothesis on the blocks. -/
def fldInv (s : PackState) : Prop :=
  s.curr.fields.length ≤ 25 ∧ ∀ e ∈ s.closed, e.fields.length ≤ 25

theorem addField_fld (title : String) (s : PackState) (n v : String)
    (h : fldInv s) : fldInv (addField title s n v).1 := by
  obtain ⟨h1, h2⟩ := h
  unfold addField
  split
  next htrip =>
    dsimp only
    split
    · exact ⟨h1, h2⟩
    · refine ⟨by simp [pushField], ?_⟩
      intro e he
      simp only [pushField] at he
      rcases List.mem_append.mp he with hmem | hmem
      · exact h2 e hmem
      · rw [List.eq_of_mem_replicate hmem]
        exact h1
  next htrip =>
    push_neg at htrip
    refine ⟨?_, h2⟩
    show (s.curr.fields ++ [(⟨n, v⟩ : EmbedField)]).length ≤ 25
    simp only [List.length_append, List.length_singleton]
    omega

theorem addChunks_fld (title : String) (b : NamedBlock) (pairs : List (Nat × String)) :
    ∀ (s : PackState), fldInv s → fldInv (addChunks title b pairs s) := by
  induction pairs with
  | nil => exact fun s h => h
  | cons p rest ih =>
    intro s h
    rcases p with ⟨i, c⟩
    have hadd := addField_fld title s (if i = 0 then fieldNameOf b else contFieldName b i)
      (orDefault c) h
    rcases hr : addField title s (if i = 0 then fieldNameOf b else contFieldName b i)
        (orDefault c) with ⟨s2, b2⟩
    rw [hr] at hadd
    rw [addChunks, hr]
    cases b2 with
    | true => exact hadd
    | false => exact ih s2 hadd

theorem processBlock_fld (title : String) (s : PackState) (b : NamedBlock)
    (h : fldInv s) : fldInv (processBlock title s b).1 := by
  unfold processBlock
  split
  · exact h
  · split
    · exact addField_fld title s _ _ h
    · exact addChunks_fld title b _ s h

theorem packBlocks_fld (title : String) (bs : List NamedBlock) :
    ∀ (s : PackState), fldInv s → fldInv (packBlocks title bs s) := by
  induction bs with
  | nil => exact fun s h => h
  | cons b t ih =>
    intro s h
    have hpb := processBlock_fld title s b h
    rcases hr : processBlock title s b with ⟨s2, b2⟩
    rw [hr] at hpb
    rw [packBlocks, hr]
    cases b2 with
    | true => exact hpb
    | false => exact ih s2 hpb

theorem finalize_fld (s : PackState) (h : fldInv s) :
    ∀ e ∈ finalize s, e.fields.length ≤ 25 := by
  obtain ⟨h1, h2⟩ := h
  have hall : ∀ e ∈ s.closed ++ List.replicate s.currCount s.curr, e.fields.length ≤ 25 := by
    intro e he
    rcases List.mem_append.mp he with hmem | hmem
    · exact h2 e hmem
    · rw [List.eq_of_mem_replicate hmem]
      exact h1
  unfold finalize
  dsimp only
  split
  · intro e he
    rcases List.mem_append.mp he with hmem | hmem
    · exact hall e hmem
    · rw [List.mem_singleton.mp hmem]
      exact h1
  · exact hall

/-- C1 amended: every produced batch has at most 25 fields,
unconditionally; and when every block line is clean (nonempty, no
embedded newline, no leading or trailing whitespace) and at most 1024
characters long, every produced batch also keeps the running budget
(title and description overhead plus the sum of field name and value
lengths) within 6000 and every field value within 1024 characters.  A
line longer than 1024 characters can produce a field value exceeding
1024 (see the counterexample). -/
theorem C1_capacity_bounds (rawTitle rawMessage : String) (blocks : List NamedBlock) :
    (∀ e ∈ notifyPack rawTitle rawMessage blocks, e.fields.length ≤ 25) ∧
    ((∀ b ∈ blocks, ∀ l ∈ b.lines, cleanLineB l = true ∧ l.length ≤ 1024) →
      ∀ e ∈ notifyPack rawTitle rawMessage blocks,
        e.fields.length ≤ 25 ∧ overheadOf e + fieldsSize e ≤ 6000 ∧
          ∀ f ∈ e.fields, f.value.length ≤ 1024) := by
  constructor
  · unfold notifyPack
    exact finalize_fld _ (packBlocks_fld _ blocks _ ⟨by simp, by simp⟩)
  · intro hcl
    unfold notifyPack
    refine finalize_embedCapsOK _ (packBlocks_inv _ blocks _ (pyTake_length_le _ 256) hcl ?_)
    have ht := pyTake_length_le rawTitle 256
    have hm := pyTake_length_le rawMessage 4096
    exact ⟨by simp [overheadOf, fieldsSize], by simp only [overheadOf, fieldsSize]; omega,
      by simp, by simp, by simp⟩

/-- Witness for C1 amended at a one-block input. -/
theorem C1_capacity_bounds_witness :
    ∀ e ∈ notifyPack "T" "M" [⟨"A", ["hi"]⟩],
      e.fields.length ≤ 25 ∧ overheadOf e + fieldsSize e ≤ 6000 ∧
        ∀ f ∈ e.fields, f.value.length ≤ 1024 :=
  (C1_capacity_bounds "T" "M" [⟨"A", ["hi"]⟩]).2 (by decide)

end Dakosys
